import Mathlib

/-!
Verification of the Verified Contribution and Reward Settlement Protocol
of the permissionless-federated-learning repository.

The development shallowly embeds:
* the canonical-message construction of `src/api/server.js` (POST /submit-payload)
  and of `src/frontend/src/components/ModelSubmission.tsx` (handleSubmit);
* the POST /submit-payload request handler of `src/api/server.js`;
* the `ModelRegistry` contract (commit registration, single and batch) of
  `src/blockchain/contracts/ModelRegistry.sol`;
* the `RewardDistributor` contract (Merkle distributions, bit-indexed claim
  ledger) of `src/blockchain/contracts/ModelRegistry.sol`, together with the
  `merkletreejs` tree construction of `src/blockchain/scripts/publishRound.js`
  and the OpenZeppelin `MerkleProof.verify` procedure it relies on.

Solidity `uint256`, `address` and `bytes32` values are modelled as `Nat`
(with explicit bounds or reductions modulo `256 ^ 32` and `256 ^ 20` where the
fixed machine width matters); `revert` is modelled by `Except`: an operation
that reverts returns `Except.error` and the caller keeps the pre-state, which
is exactly the all-or-nothing semantics of an EVM transaction.  keccak256 is
not computed: tree building and proof verification are parameterised by an
arbitrary hash model, so every theorem below holds for every hash function.
-/

/-! ## Byte-level encodings -/

/-- Big-endian fixed-width byte encoding of a natural number: `beBytes w n`
is the `w`-byte big-endian rendering of `n % 256 ^ w`.  This is how Solidity
`abi.encodePacked` renders a `uint256` (`w = 32`) or an `address` (`w = 20`). -/
def beBytes : Nat → Nat → List Nat
  | 0, _ => []
  | w + 1, n => beBytes w (n / 256) ++ [n % 256]

/-- The pre-image bytes of the leaf reconstructed by
`RewardDistributor.claimMerkle`: `keccak256(abi.encodePacked(index, account,
amount))` hashes the 32-byte index, the 20-byte account address and the
32-byte amount, concatenated in that fixed order
(`src/blockchain/contracts/ModelRegistry.sol`, line 490). -/
def claimLeafBytes (index account amount : Nat) : List Nat :=
  beBytes 32 index ++ beBytes 20 account ++ beBytes 32 amount

/-- Standard UTF-8 encoding of a single character (the byte rendering a JS
string receives when it is hashed by the `keccak256` npm package). -/
def utf8Enc (c : Char) : List Nat :=
  let n := c.toNat
  if n < 0x80 then [n]
  else if n < 0x800 then [0xC0 + n / 64, 0x80 + n % 64]
  else if n < 0x10000 then
    [0xE0 + n / 4096, 0x80 + (n / 64) % 64, 0x80 + n % 64]
  else
    [0xF0 + n / 262144, 0x80 + (n / 4096) % 64, 0x80 + (n / 64) % 64, 0x80 + n % 64]

/-- UTF-8 bytes of a string. -/
def strBytes (s : String) : List Nat :=
  s.data.flatMap utf8Enc

/-! ## Canonical message construction

`src/api/server.js` line 94 recomputes the canonical string as the template
literal `cid|round:R|examples:W|quality:Q`;
`src/frontend/src/components/ModelSubmission.tsx` line 66 builds the message
it signs with the same template, except that the examples field is the raw
text of the numeric input box. -/

/-- The canonical message as recomputed by the server
(`src/api/server.js` line 94): JS renders the numeric fields in base-10. -/
def canonicalString (cid : String) (round weight quality : Int) : String :=
  cid ++ "|round:" ++ toString round ++ "|examples:" ++ toString weight
      ++ "|quality:" ++ toString quality

/-- The canonical message as built by the frontend
(`src/frontend/src/components/ModelSubmission.tsx` line 66): the examples
field is interpolated from the text box as a raw string. -/
def frontendCanonical (cid : String) (roundNumber : Int) (numExamples : String)
    (quality : Int) : String :=
  cid ++ "|round:" ++ toString roundNumber ++ "|examples:" ++ numExamples
      ++ "|quality:" ++ toString quality

/-- The leaf string hashed by `src/blockchain/scripts/publishRound.js`
line 24: the canonical string of a manifest entry with the submitter
appended. -/
def publishLeafString (cid : String) (round numExamples quality : Int)
    (submitter : String) : String :=
  canonicalString cid round numExamples quality ++ "|submitter:" ++ submitter

/-- The pre-image bytes of a `publishRound.js` Merkle leaf: `keccak256` of the
UTF-8 bytes of the leaf string. -/
def publishLeafBytes (cid : String) (round numExamples quality : Int)
    (submitter : String) : List Nat :=
  strBytes (publishLeafString cid round numExamples quality submitter)

/-! ## The POST /submit-payload handler of src/api/server.js -/

/-- A /submit-payload request body.  Each field is `Option`-wrapped: `none`
models an absent JSON key (`undefined` in JS). -/
structure Payload where
  cid : Option String
  sha256f : Option String
  round : Option Int
  num_examples : Option Int
  quality : Option Int
  submitter : Option String
  message : Option String
  signature : Option String
deriving DecidableEq, Repr

/-- JS truthiness of a string field: `undefined` and the empty string are
falsy. -/
def truthyS : Option String → Bool
  | none => false
  | some s => !(s == "")

/-- JS truthiness of a numeric field: `undefined` and `0` are falsy. -/
def truthyN : Option Int → Bool
  | none => false
  | some v => !(v == 0)

/-- The required-field loop of `src/api/server.js` lines 86-87: the first
field of the fixed list whose value is falsy, if any.  The server responds
400 `missing k` for that field name. -/
def firstMissing (p : Payload) : Option String :=
  if !truthyS p.cid then some "cid"
  else if !truthyS p.sha256f then some "sha256"
  else if !truthyN p.round then some "round"
  else if !truthyN p.num_examples then some "num_examples"
  else if !truthyN p.quality then some "quality"
  else if !truthyS p.submitter then some "submitter"
  else if !truthyS p.message then some "message"
  else if !truthyS p.signature then some "signature"
  else none

/-- The canonical string the server recomputes from the payload fields
(`src/api/server.js` line 94). -/
def canonicalOfPayload (p : Payload) : String :=
  canonicalString (p.cid.getD "") (p.round.getD 0) (p.num_examples.getD 0)
    (p.quality.getD 0)

/-- JS String.prototype.toLowerCase, modelled as per-character lowercasing
(the handler only applies it to hex-encoded addresses). -/
def lowerStr (s : String) : String := ⟨s.data.map Char.toLower⟩

/-- Outcome of the /submit-payload handler.  `saved` is the 200 response
after the manifest file is written; `badRequest` is a 400 response;
`serverError` is the 500 response produced by the catch block when the body
throws (for example when `ethers.utils.verifyMessage` rejects a malformed
signature). -/
inductive SubmitResult where
  | saved (p : Payload)
  | badRequest (msg : String)
  | serverError (msg : String)
deriving DecidableEq, Repr

/-- Whether the handler accepted and persisted the submission. -/
def SubmitResult.isSaved : SubmitResult → Bool
  | .saved _ => true
  | _ => false

/-- The POST /submit-payload handler (`src/api/server.js` lines 83-106).
`verify` models `ethers.utils.verifyMessage`: given the message and the
signature it either returns the recovered signer address or fails;  in JS a
failure is a thrown exception, which the surrounding try/catch turns into the
500 response, so it is embedded as the `Except.error` branch.  The checks run
in source order: required fields, signature recovery and comparison
(case-insensitive via toLowerCase), canonical-string recomputation, then the
manifest write. -/
def submitPayload (verify : String → String → Except String String)
    (p : Payload) : SubmitResult :=
  match firstMissing p with
  | some k => .badRequest ("missing " ++ k)
  | none =>
    match verify (p.message.getD "") (p.signature.getD "") with
    | .error e => .serverError e
    | .ok recovered =>
      if lowerStr recovered != lowerStr (p.submitter.getD "") then
        .badRequest "signature mismatch"
      else if canonicalOfPayload p != p.message.getD "" then
        .badRequest "message not canonical"
      else
        .saved p

/-! ## The ModelRegistry contract (src/blockchain/contracts/ModelRegistry.sol)

Commit registration of the reward-distribution variant of the contract
(`registerRoundCommit`, lines 234-249, and `registerRoundCommits`,
lines 252-285; the logic is byte-identical in the earlier variant of the
contract kept in the same file).  `bytes32` and `address` values are `Nat`;
the zero hash and the zero address are `0`. -/

/-- A stored commit record (struct `Commit`). -/
structure Commit where
  commitHash : Nat
  contributor : Nat
  roundId : Nat
  timestamp : Nat
deriving DecidableEq, Repr

/-- Registry storage: the commit counter, the `commits` mapping and the
`usedCommitHashes` mapping (mappings default to zeroed records / false). -/
structure RegState where
  commitCounter : Nat
  commits : Nat → Commit
  usedCommitHashes : Nat → Bool

/-- Revert reasons of the commit-registration functions, one per `require`
string in the source. -/
inductive RegError where
  | InvalidHash          -- "ModelRegistry: invalid hash"
  | HashUsed             -- "ModelRegistry: hash used"
  | EmptyBatch           -- "ModelRegistry: empty"
  | ArrayMismatch        -- "ModelRegistry: array mismatch"
  | BatchTooLarge        -- "ModelRegistry: batch too large"
  | InvalidContributor   -- "ModelRegistry: invalid contributor"
deriving DecidableEq, Repr

/-- Record one commit: mark the hash used, store the record at the current
counter, bump the counter.  This is the shared body of the single and the
batch registration loop. -/
def recordCommit (st : RegState) (h roundId contributor timestamp : Nat) :
    RegState where
  commitCounter := st.commitCounter + 1
  commits := fun k =>
    if k = st.commitCounter then ⟨h, contributor, roundId, timestamp⟩
    else st.commits k
  usedCommitHashes := fun x => if x = h then true else st.usedCommitHashes x

/-- `ModelRegistry.registerRoundCommit` (lines 234-249): reject the zero hash
and any hash already marked used, otherwise record the commit and return the
new commit id. -/
def registerRoundCommit (st : RegState) (commitHash roundId sender timestamp : Nat) :
    Except RegError (RegState × Nat) :=
  if commitHash = 0 then .error .InvalidHash
  else if st.usedCommitHashes commitHash then .error .HashUsed
  else .ok (recordCommit st commitHash roundId sender timestamp, st.commitCounter)

/-- The per-entry loop of `ModelRegistry.registerRoundCommits`
(lines 265-282) over the zipped entry list `(hash, (roundId, contributor))`.
A failing `require` inside the loop reverts the whole transaction, which the
`Except.error` propagation models: the caller keeps the pre-state. -/
def regBatchLoop (timestamp : Nat) (st : RegState) :
    List (Nat × Nat × Nat) → Except RegError RegState
  | [] => .ok st
  | (h, roundId, contributor) :: rest =>
    if h = 0 then .error .InvalidHash
    else if st.usedCommitHashes h then .error .HashUsed
    else if contributor = 0 then .error .InvalidContributor
    else regBatchLoop timestamp (recordCommit st h roundId contributor timestamp) rest

/-- `ModelRegistry.registerRoundCommits` (lines 252-285): require a non-empty
batch, equal array lengths and at most 100 entries, then run the per-entry
loop. -/
def registerRoundCommits (st : RegState) (commitHashes roundIds contributors : List Nat)
    (timestamp : Nat) : Except RegError RegState :=
  if commitHashes.length = 0 then .error .EmptyBatch
  else if ¬ (commitHashes.length = roundIds.length ∧
             commitHashes.length = contributors.length) then .error .ArrayMismatch
  else if 100 < commitHashes.length then .error .BatchTooLarge
  else regBatchLoop timestamp st (commitHashes.zip (roundIds.zip contributors))

/-- A registry transaction: a single registration or a batch. -/
inductive RegOp where
  | single (commitHash roundId sender timestamp : Nat)
  | batch (commitHashes roundIds contributors : List Nat) (timestamp : Nat)

/-- Apply one registry transaction; a reverting transaction leaves the state
unchanged. -/
def applyRegOp (st : RegState) : RegOp → RegState
  | .single h r s t =>
    match registerRoundCommit st h r s t with
    | .ok (st', _) => st'
    | .error _ => st
  | .batch hs rs cs t =>
    match registerRoundCommits st hs rs cs t with
    | .ok st' => st'
    | .error _ => st

/-- Apply a sequence of registry transactions. -/
def applyRegOps (st : RegState) (ops : List RegOp) : RegState :=
  ops.foldl applyRegOp st

/-! ## Merkle tree construction and proof verification

`src/blockchain/scripts/publishRound.js` builds its tree with
`new MerkleTree(leaves, keccak256, { sortPairs: true })`: each layer pairs
adjacent nodes, hashes the byte-wise smaller child first, and carries a
trailing unpaired node up unchanged; the root of a single node is the node
itself.  `RewardDistributor.claimMerkle` verifies proofs with OpenZeppelin
`MerkleProof.verify`: fold the proof over the leaf, at each step hashing the
ordered pair of the running hash and the proof element.  Hash values are
modelled abstractly: `leafHash` stands for keccak256 of a byte string and
`pairHash` for keccak256 of the concatenation of two 32-byte words, so the
theorems hold for every hash function.  The layer recursion consumes fuel
(initially the leaf count, which always suffices) instead of a
well-foundedness argument. -/

/-- An abstract keccak256: `leafHash` hashes a byte string to a word,
`pairHash` hashes two words. -/
structure HashModel where
  leafHash : List Nat → Nat
  pairHash : Nat → Nat → Nat

/-- Commutative pair hashing: both `merkletreejs` with `sortPairs: true` and
OpenZeppelin `MerkleProof._hashPair` hash the smaller word first. -/
def hashPair (hm : HashModel) (a b : Nat) : Nat :=
  if a ≤ b then hm.pairHash a b else hm.pairHash b a

/-- One layer step of tree building: combine adjacent pairs, carry a trailing
unpaired node up unchanged. -/
def nextLayer (hm : HashModel) : List Nat → List Nat
  | [] => []
  | [a] => [a]
  | a :: b :: rest => hashPair hm a b :: nextLayer hm rest

/-- Root of a leaf layer, with fuel for the layer recursion.  An empty tree
has root `0` (the zero `bytes32`). -/
def rootAux (hm : HashModel) : Nat → List Nat → Nat
  | _, [] => 0
  | _, [a] => a
  | 0, _ :: _ :: _ => 0
  | fuel + 1, l => rootAux hm fuel (nextLayer hm l)

/-- `MerkleTree.getRoot` for a leaf list (fuel = leaf count always suffices
because each layer at least halves). -/
def merkleRootOf (hm : HashModel) (leaves : List Nat) : Nat :=
  rootAux hm leaves.length leaves

/-- The sibling of position `i` in a layer, if it exists: positions pair as
`(0,1) (2,3) ...` and the trailing unpaired node has no sibling. -/
def siblingAt (l : List Nat) (i : Nat) : List Nat :=
  let j := if i % 2 = 0 then i + 1 else i - 1
  if j < l.length then [l.getD j 0] else []

/-- `MerkleTree.getProof` for position `i`, with fuel: collect the sibling at
each layer, moving to position `i / 2` in the next layer. -/
def proofAux (hm : HashModel) : Nat → List Nat → Nat → List Nat
  | _, [], _ => []
  | _, [_], _ => []
  | 0, _ :: _ :: _, _ => []
  | fuel + 1, l, i => siblingAt l i ++ proofAux hm fuel (nextLayer hm l) (i / 2)

/-- The Merkle proof for the leaf at position `i`. -/
def proofAt (hm : HashModel) (leaves : List Nat) (i : Nat) : List Nat :=
  proofAux hm leaves.length leaves i

/-- OpenZeppelin `MerkleProof.processProof`: fold the proof over the leaf
with commutative pair hashing. -/
def processProof (hm : HashModel) (proof : List Nat) (leaf : Nat) : Nat :=
  proof.foldl (hashPair hm) leaf

/-- OpenZeppelin `MerkleProof.verify` as used by `claimMerkle` (line 491). -/
def merkleVerify (hm : HashModel) (proof : List Nat) (root leaf : Nat) : Bool :=
  processProof hm proof leaf == root

/-! ## The RewardDistributor contract
(src/blockchain/contracts/ModelRegistry.sol, lines 427-521) -/

/-- One distribution record (struct `Distribution`): the mapping default is
the all-zero record, and a zero `merkleRoot` means the distribution is not
set. -/
structure Distribution where
  merkleRoot : Nat
  totalReward : Nat
  claimedAmount : Nat
deriving DecidableEq, Repr

/-- Distributor storage: the `distributions` mapping, the two-level claimed
bitmap `modelId => wordIndex => word`, and the reward-token balance of the
distributor contract itself (the balance `setDistributionMerkle` reads and
`safeTransfer` draws from). -/
structure DistState where
  distributions : Nat → Distribution
  claimedBitmap : Nat → Nat → Nat
  distributorBalance : Nat

/-- Revert reasons of the distributor.  The first five are the custom errors of
the contract; `Overflow` and `Underflow` are Solidity 0.8 checked-arithmetic
reverts, and `TransferFailed` is a revert inside `safeTransfer` when the
contract balance cannot cover the transfer. -/
inductive ClaimError where
  | InvalidRoot
  | ZeroReward
  | InsufficientBalance
  | AlreadyClaimed
  | InvalidProof
  | Overflow
  | Underflow
  | TransferFailed
deriving DecidableEq, Repr

/-- `RewardDistributor.isClaimed` (lines 502-508): test bit `index % 256` of
word `index / 256` of the claimed bitmap of the model. -/
def isClaimed (st : DistState) (modelId index : Nat) : Bool :=
  st.claimedBitmap modelId (index / 256) &&& (1 <<< (index % 256)) != 0

/-- `RewardDistributor._setClaimed` (lines 510-514): OR bit `index % 256`
into word `index / 256` of the claimed bitmap of the model. -/
def setClaimed (st : DistState) (modelId index : Nat) : DistState :=
  { st with
    claimedBitmap := fun m w =>
      if m = modelId ∧ w = index / 256 then
        st.claimedBitmap m w ||| (1 <<< (index % 256))
      else st.claimedBitmap m w }

/-- `RewardDistributor.setDistributionMerkle` (lines 463-481): reject a zero
root or zero total; compute the still-escrowed remainder of an existing
distribution; require the token balance to cover that remainder plus the new
total; then overwrite the root and total and reset `claimedAmount` to zero.
The claimed bitmap is not touched. -/
def setDistributionMerkle (st : DistState) (modelId merkleRoot totalReward : Nat) :
    Except ClaimError DistState :=
  if merkleRoot = 0 then .error .InvalidRoot
  else if totalReward = 0 then .error .ZeroReward
  else if (st.distributions modelId).merkleRoot ≠ 0 ∧
          (st.distributions modelId).totalReward <
            (st.distributions modelId).claimedAmount then .error .Underflow
  else if st.distributorBalance <
      (if (st.distributions modelId).merkleRoot ≠ 0 then
        (st.distributions modelId).totalReward -
          (st.distributions modelId).claimedAmount
       else 0) + totalReward then .error .InsufficientBalance
  else .ok { st with
    distributions := fun k =>
      if k = modelId then ⟨merkleRoot, totalReward, 0⟩ else st.distributions k }

/-- `RewardDistributor.claimMerkle` (lines 484-499), in source order:
(1) revert `InvalidRoot` if the distribution is unset; (2) revert
`AlreadyClaimed` if the bit of `index` is already set — before the leaf is
even reconstructed; (3) reconstruct the leaf from
`abi.encodePacked(index, account, amount)` and verify the proof, reverting
`InvalidProof` on mismatch; (4) set the bit, add `amount` to `claimedAmount`
(checked uint256 addition) and transfer `amount` from the contract balance.
A revert at any step leaves the state unchanged at the caller. -/
def claimMerkle (hm : HashModel) (st : DistState) (modelId index account amount : Nat)
    (proof : List Nat) : Except ClaimError DistState :=
  if (st.distributions modelId).merkleRoot = 0 then .error .InvalidRoot
  else if isClaimed st modelId index then .error .AlreadyClaimed
  else if ¬ merkleVerify hm proof (st.distributions modelId).merkleRoot
      (hm.leafHash (claimLeafBytes index account amount)) then .error .InvalidProof
  else if 256 ^ 32 ≤ (st.distributions modelId).claimedAmount + amount then
    .error .Overflow
  else if st.distributorBalance < amount then .error .TransferFailed
  else .ok
    { (setClaimed st modelId index) with
      distributions := fun k =>
        if k = modelId then
          { st.distributions modelId with
            claimedAmount := (st.distributions modelId).claimedAmount + amount }
        else st.distributions k
      distributorBalance := st.distributorBalance - amount }

/-- `RewardDistributor.emergencyWithdraw` (lines 517-520) for the reward
token itself: reject the zero recipient, then transfer from the contract
balance (reverting inside `safeTransfer` if the balance is short). -/
def emergencyWithdraw (st : DistState) (amount to_ : Nat) :
    Except ClaimError DistState :=
  if to_ = 0 then .error .InvalidRoot
  else if st.distributorBalance < amount then .error .TransferFailed
  else .ok { st with distributorBalance := st.distributorBalance - amount }

/-- A distributor transaction: a claim, a root publication, an emergency
withdrawal, or an incoming token transfer that funds the distributor. -/
inductive DistOp where
  | claim (modelId index account amount : Nat) (proof : List Nat)
  | setDist (modelId merkleRoot totalReward : Nat)
  | withdraw (amount to_ : Nat)
  | fund (amount : Nat)

/-- Apply one distributor transaction; a reverting transaction leaves the
state unchanged. -/
def applyDistOp (hm : HashModel) (st : DistState) : DistOp → DistState
  | .claim m i a amt p =>
    match claimMerkle hm st m i a amt p with
    | .ok st' => st'
    | .error _ => st
  | .setDist m r t =>
    match setDistributionMerkle st m r t with
    | .ok st' => st'
    | .error _ => st
  | .withdraw amt to_ =>
    match emergencyWithdraw st amt to_ with
    | .ok st' => st'
    | .error _ => st
  | .fund amt => { st with distributorBalance := st.distributorBalance + amt }

/-- Apply a sequence of distributor transactions. -/
def applyDistOps (hm : HashModel) (st : DistState) (ops : List DistOp) : DistState :=
  ops.foldl (applyDistOp hm) st

/-- Whether a distributor transaction is a `claimMerkle` call. -/
def DistOp.isClaim : DistOp → Prop
  | .claim _ _ _ _ _ => True
  | _ => False

/-- Well-typed calldata of a distributor transaction: a claim carries a
`uint256` index, an `address` account and a `uint256` amount. -/
def DistOp.wf : DistOp → Prop
  | .claim _ i a amt _ => i < 256 ^ 32 ∧ a < 256 ^ 20 ∧ amt < 256 ^ 32
  | _ => True

/-! ## Reward entry sets and commitment -/

/-- A reward entry set: entry `i` of the list is `(recipient, amount)` at
Merkle index `i`. -/
abbrev RewardEntries := List (Nat × Nat)

/-- The claim-side leaves of a reward entry set: leaf `i` hashes the packed
encoding of `(i, recipient_i, amount_i)`, the encoding `claimMerkle`
reconstructs. -/
def claimLeaves (hm : HashModel) (entries : RewardEntries) : List Nat :=
  (List.range entries.length).map fun i =>
    hm.leafHash (claimLeafBytes i (entries.getD i (0, 0)).1 (entries.getD i (0, 0)).2)

/-- `root` commits to `entries`: every claim tuple (well-typed calldata) that
passes `MerkleProof.verify` against `root` is exactly one of the committed
entries at its own index.  This is what it means for a published root to
commit to a reward entry set. -/
def commitsTo (hm : HashModel) (root : Nat) (entries : RewardEntries) : Prop :=
  ∀ i a m (p : List Nat), i < 256 ^ 32 → a < 256 ^ 20 → m < 256 ^ 32 →
    merkleVerify hm p root (hm.leafHash (claimLeafBytes i a m)) = true →
    i < entries.length ∧ entries.getD i (0, 0) = (a, m)

/-- Sum of the amounts of the committed entries whose index is not yet
claimed for model `d`. -/
def unclaimedSum (entries : RewardEntries) (st : DistState) (d : Nat) : Nat :=
  ∑ i in (Finset.range entries.length).filter
      (fun i => ¬ isClaimed st d i = true), (entries.getD i (0, 0)).2

/-! ## Concrete instances used by witnesses and counterexamples -/

/-- A recovery function that always succeeds with a fixed address. -/
def vOk : String → String → Except String String := fun _ _ => .ok "0xAB"

/-- A recovery function that always fails, as `ethers.utils.verifyMessage`
does on a malformed signature. -/
def vErr : String → String → Except String String := fun _ _ => .error "bad signature"

/-- A fully valid payload: canonical message, matching submitter. -/
def pGood : Payload :=
  ⟨some "Qm123", some "ab12", some 1, some 100, some 250, some "0xab",
   some "Qm123|round:1|examples:100|quality:250", some "0xsig"⟩

/-- A payload whose stored message is not the canonical string of its
fields. -/
def pMismatch : Payload :=
  ⟨some "Qm123", some "ab12", some 1, some 100, some 250, some "0xab",
   some "wrong", some "0xsig"⟩

/-- A payload with all eight fields present but `round` equal to `0`. -/
def pZeroRound : Payload :=
  ⟨some "Qm123", some "ab12", some 0, some 100, some 250, some "0xab",
   some "Qm123|round:0|examples:100|quality:250", some "0xsig"⟩

/-- A toy hash model: the leaf encoding of the tuple `(0, 7, 100)` hashes to
`1`, everything else (including every pair) hashes to `2`. -/
def hmT : HashModel :=
  ⟨fun bs => if bs == claimLeafBytes 0 7 100 then 1 else 2, fun _ _ => 2⟩

/-- Distributor state with one published distribution: model `5` has root
`1`, total reward `100`, nothing claimed, and the contract holds `100`
tokens. -/
def stT : DistState :=
  ⟨fun m => if m = 5 then ⟨1, 100, 0⟩ else ⟨0, 0, 0⟩, fun _ _ => 0, 100⟩

/-- A sample transaction mix run after a successful claim. -/
def opsT : List DistOp :=
  [DistOp.fund 7, DistOp.setDist 5 9 40, DistOp.claim 5 1 8 0 [], DistOp.withdraw 3 9]

/-- Distributor state for the root-replacement witness: model `5` has root
`1`, total `200`, all `200` already claimed (index `1` claimed: word `0` of
the bitmap is `2`), and the contract holds `50` tokens. -/
def stT10 : DistState :=
  ⟨fun m => if m = 5 then ⟨1, 200, 200⟩ else ⟨0, 0, 0⟩,
   fun m w => if m = 5 ∧ w = 0 then 2 else 0, 50⟩

/-- The single-entry reward set of the structural-bound witness: index `0`
pays `100` to recipient `7`. -/
def entriesT : RewardEntries := [(7, 100)]

/-- The two-entry reward set of the round-trip witness. -/
def entriesT2 : RewardEntries := [(7, 100), (8, 200)]

/-- Distributor state whose model 5 root is the Merkle root of the
claim-side leaves of `entriesT2` under `hmT` (that root evaluates to 2). -/
def stT2 : DistState :=
  ⟨fun m => if m = 5 then ⟨2, 300, 0⟩ else ⟨0, 0, 0⟩, fun _ _ => 0, 300⟩

/-- The empty registry. -/
def rst0 : RegState := ⟨0, fun _ => ⟨0, 0, 0, 0⟩, fun _ => false⟩

/-- Registry transactions run after a successful registration. -/
def ropsT : List RegOp :=
  [RegOp.batch [4, 5] [1, 1] [7, 8] 11, RegOp.single 6 2 9 12, RegOp.single 3 2 9 13]

/-! ## Fixed-width encoding lemmas -/

theorem beBytes_length (w : Nat) : ∀ n, (beBytes w n).length = w := by
  induction w with
  | zero => intro n; rfl
  | succ w ih => intro n; simp [beBytes, ih]

theorem beBytes_inj (w : Nat) : ∀ n n', n < 256 ^ w → n' < 256 ^ w →
    beBytes w n = beBytes w n' → n = n' := by
  induction w with
  | zero => intro n n' hn hn' _; simp [pow_zero] at hn hn'; omega
  | succ w ih =>
    intro n n' hn hn' h
    simp only [beBytes] at h
    obtain ⟨h1, h2⟩ := List.append_inj h (by simp [beBytes_length])
    have hdiv : n / 256 = n' / 256 := by
      refine ih _ _ ?_ ?_ h1 <;>
        · rw [Nat.div_lt_iff_lt_mul (by norm_num)]
          calc _ < 256 ^ (w + 1) := by assumption
          _ = 256 ^ w * 256 := by rw [pow_succ]
    have hmod : n % 256 = n' % 256 := by simpa using h2
    omega

/-- The packed leaf encoding `abi.encodePacked(index, account, amount)` is
injective on well-typed calldata: the fixed widths make the concatenation
unambiguous. -/
theorem claimLeafBytes_inj {i a m i' a' m' : Nat}
    (hi : i < 256 ^ 32) (ha : a < 256 ^ 20) (hm : m < 256 ^ 32)
    (hi' : i' < 256 ^ 32) (ha' : a' < 256 ^ 20) (hm' : m' < 256 ^ 32)
    (h : claimLeafBytes i a m = claimLeafBytes i' a' m') :
    i = i' ∧ a = a' ∧ m = m' := by
  unfold claimLeafBytes at h
  obtain ⟨h12, h3⟩ := List.append_inj h (by simp [beBytes_length])
  obtain ⟨h1, h2⟩ := List.append_inj h12 (by simp [beBytes_length])
  exact ⟨beBytes_inj 32 _ _ hi hi' h1, beBytes_inj 20 _ _ ha ha' h2,
         beBytes_inj 32 _ _ hm hm' h3⟩

/-! ## Submission ledger theorems (POST /submit-payload) -/

/-- C5: for every submission payload, if the canonical string recomputed
from its fields (cid, round, num_examples, quality) differs from the stored
message, the handler rejects the submission and does not persist it,
whatever the recovery function does — in particular even when the signature
is valid over the stored message. -/
theorem canonical_mismatch_never_saved
    (verify : String → String → Except String String) (p : Payload)
    (h : canonicalOfPayload p ≠ p.message.getD "") :
    (submitPayload verify p).isSaved = false := by
  unfold submitPayload
  cases hf : firstMissing p with
  | some k => rfl
  | none =>
    cases hv : verify (p.message.getD "") (p.signature.getD "") with
    | error e => rfl
    | ok recovered =>
      have hcan : (canonicalOfPayload p != p.message.getD "") = true := by
        simpa [bne_iff_ne] using h
      by_cases hlow : (lowerStr recovered != lowerStr (p.submitter.getD "")) = true
      · simp [hlow, SubmitResult.isSaved]
      · simp [hlow, hcan, SubmitResult.isSaved]

/-- Witness for C5: a concrete payload whose message is not canonical,
submitted with a recovery function that accepts its signature, is not
saved. -/
theorem canonical_mismatch_never_saved_witness :
    canonicalOfPayload pMismatch ≠ pMismatch.message.getD "" ∧
    (submitPayload vOk pMismatch).isSaved = false :=
  ⟨by decide, canonical_mismatch_never_saved vOk pMismatch (by decide)⟩

/-- C6: the canonical message of a tuple is exactly
`cid|round:R|examples:W|quality:Q` in that fixed order; the tuple
`("Qm123", 1, 100, 250)` yields the string of the spec example; the frontend
construction and the server recomputation produce byte-identical output on
the same tuple (the frontend interpolates the examples field as raw text, so
this is its base-10 rendering). -/
theorem canonical_message_format :
    (canonicalString "Qm123" 1 100 250 = "Qm123|round:1|examples:100|quality:250") ∧
    (∀ cid (r w q : Int), frontendCanonical cid r (toString w) q = canonicalString cid r w q) ∧
    (∀ (p : Payload) cid (r w q : Int), p.cid = some cid → p.round = some r →
      p.num_examples = some w → p.quality = some q →
      canonicalOfPayload p = canonicalString cid r w q) := by
  refine ⟨by decide, fun cid r w q => rfl, fun p cid r w q h1 h2 h3 h4 => ?_⟩
  unfold canonicalOfPayload
  rw [h1, h2, h3, h4]
  rfl

/-- Witness for C6: the server recomputation on the concrete valid payload
equals the canonical string of its tuple. -/
theorem canonical_message_format_witness :
    canonicalOfPayload pGood = canonicalString "Qm123" 1 100 250 :=
  canonical_message_format.2.2 pGood "Qm123" 1 100 250 rfl rfl rfl rfl

/-- C8: the verifier fails closed.  When recovery fails (malformed
signature, wrong length, recovery error — in JS a thrown exception), the
handler returns the structured 500 rejection for that submission instead of
crashing, and a batch of submissions processed around it is unaffected:
failures are values, not thrown out of the service. -/
theorem verify_error_fails_closed
    (verify : String → String → Except String String) (p : Payload) (e : String)
    (hmiss : firstMissing p = none)
    (hv : verify (p.message.getD "") (p.signature.getD "") = .error e) :
    submitPayload verify p = .serverError e ∧
    ∀ ps₁ ps₂ : List Payload,
      (ps₁ ++ p :: ps₂).map (submitPayload verify) =
        ps₁.map (submitPayload verify) ++
          SubmitResult.serverError e :: ps₂.map (submitPayload verify) := by
  have h1 : submitPayload verify p = .serverError e := by
    unfold submitPayload
    rw [hmiss, hv]
  exact ⟨h1, fun ps₁ ps₂ => by simp [h1]⟩

/-- Witness for C8: a concrete complete payload with a failing recovery
function yields the structured 500 rejection, and neighbouring submissions
are processed as if it were absent. -/
theorem verify_error_fails_closed_witness :
    submitPayload vErr pMismatch = SubmitResult.serverError "bad signature" ∧
    ([pGood] ++ pMismatch :: [pGood]).map (submitPayload vErr) =
      [pGood].map (submitPayload vErr) ++
        SubmitResult.serverError "bad signature" :: [pGood].map (submitPayload vErr) :=
  ⟨(verify_error_fails_closed vErr pMismatch "bad signature" (by decide) rfl).1,
   (verify_error_fails_closed vErr pMismatch "bad signature" (by decide) rfl).2 [pGood] [pGood]⟩

/-- Counterexample to C9: a payload with all eight fields present but
`round = 0` is rejected by the required-field check with `missing round`,
because the check tests JS truthiness (`!payload[k]`), not presence; so it is
not the case that every all-fields-present submission passes the check. -/
theorem zero_round_rejected_as_missing :
    (pZeroRound.cid ≠ none ∧ pZeroRound.sha256f ≠ none ∧ pZeroRound.round ≠ none ∧
     pZeroRound.num_examples ≠ none ∧ pZeroRound.quality ≠ none ∧
     pZeroRound.submitter ≠ none ∧ pZeroRound.message ≠ none ∧
     pZeroRound.signature ≠ none) ∧
    pZeroRound.round = some 0 ∧
    submitPayload vOk pZeroRound = .badRequest "missing round" := by decide

/-- C9 as amended: the handler rejects with `missing k` exactly when `k` is
the first of the eight required fields whose value is falsy in the JS sense —
absent, the empty string for string fields, or zero for numeric fields.  In
particular a present `round = 0` or `quality = 0` is rejected as missing,
and the check passes precisely when every field is present and truthy. -/
theorem required_check_is_truthiness (p : Payload) :
    (firstMissing p = none ↔
      (truthyS p.cid = true ∧ truthyS p.sha256f = true ∧ truthyN p.round = true ∧
       truthyN p.num_examples = true ∧ truthyN p.quality = true ∧
       truthyS p.submitter = true ∧ truthyS p.message = true ∧
       truthyS p.signature = true)) ∧
    (∀ k, firstMissing p = some k →
      ∀ verify, submitPayload verify p = .badRequest ("missing " ++ k)) := by
  constructor
  · unfold firstMissing
    repeat' split
    all_goals simp_all
  · intro k hk verify
    unfold submitPayload
    rw [hk]

/-- Witness for C9 as amended: the all-truthy payload passes the check, and
the payload with `round = 0` is rejected as `missing round`. -/
theorem required_check_is_truthiness_witness :
    firstMissing pGood = none ∧
    submitPayload vOk pZeroRound = .badRequest "missing round" :=
  ⟨(required_check_is_truthiness pGood).1.mpr (by decide),
   (required_check_is_truthiness pZeroRound).2 "round" (by decide) vOk⟩

/-! ## Registry theorems (commit dedup) -/

theorem recordCommit_used_mono (st : RegState) (h r c t x : Nat)
    (hx : st.usedCommitHashes x = true) :
    (recordCommit st h r c t).usedCommitHashes x = true := by
  by_cases hxe : x = h <;> simp [recordCommit, hxe, hx]

theorem recordCommit_used_self (st : RegState) (h r c t : Nat) :
    (recordCommit st h r c t).usedCommitHashes h = true := by
  simp [recordCommit]

theorem regBatchLoop_used_mono (t : Nat) : ∀ (entries : List (Nat × Nat × Nat))
    (st st' : RegState), regBatchLoop t st entries = .ok st' →
    ∀ x, st.usedCommitHashes x = true → st'.usedCommitHashes x = true := by
  intro entries
  induction entries with
  | nil =>
    intro st st' hloop x hx
    simp only [regBatchLoop] at hloop
    cases hloop
    exact hx
  | cons hd rest ih =>
    intro st st' hloop x hx
    obtain ⟨h, r, c⟩ := hd
    simp only [regBatchLoop] at hloop
    split at hloop
    · cases hloop
    · split at hloop
      · cases hloop
      · split at hloop
        · cases hloop
        · exact ih _ _ hloop x (recordCommit_used_mono st h r c t x hx)

theorem applyRegOp_used_mono (st : RegState) (o : RegOp) (x : Nat)
    (hx : st.usedCommitHashes x = true) :
    (applyRegOp st o).usedCommitHashes x = true := by
  cases o with
  | single h r s t =>
    simp only [applyRegOp]
    split
    · rename_i st' id heq
      unfold registerRoundCommit at heq
      split at heq
      · cases heq
      · split at heq
        · cases heq
        · cases heq
          exact recordCommit_used_mono st h r s t x hx
    · exact hx
  | batch hs rs cs t =>
    simp only [applyRegOp]
    split
    · rename_i st' heq
      unfold registerRoundCommits at heq
      split at heq
      · cases heq
      · split at heq
        · cases heq
        · split at heq
          · cases heq
          · exact regBatchLoop_used_mono t _ st st' heq x hx
    · exact hx

theorem applyRegOps_used_mono (ops : List RegOp) : ∀ (st : RegState) (x : Nat),
    st.usedCommitHashes x = true → (applyRegOps st ops).usedCommitHashes x = true := by
  induction ops with
  | nil => intro st x hx; exact hx
  | cons o rest ih =>
    intro st x hx
    exact ih (applyRegOp st o) x (applyRegOp_used_mono st o x hx)

theorem getD_mem_zip : ∀ (l₁ : List Nat) (l₂ : List (Nat × Nat)) (i : Nat),
    i < l₁.length → l₁.length = l₂.length →
    (l₁.getD i 0, l₂.getD i (0, 0)) ∈ l₁.zip l₂ := by
  intro l₁
  induction l₁ with
  | nil => intro l₂ i hi _; simp at hi
  | cons a as ih =>
    intro l₂ i hi hlen
    cases l₂ with
    | nil => simp at hlen
    | cons b bs =>
      cases i with
      | zero => simp [List.zip]
      | succ j =>
        have := ih bs j (by simpa using hi) (by simpa using hlen)
        simp only [List.getD_cons_succ, List.zip_cons_cons]
        exact List.mem_cons_of_mem _ this

/-- If some entry of the batch is invalid at loop entry — zero hash, hash
already marked used, or zero contributor — the per-entry loop reverts
(marking inside the loop only ever adds hashes to the used set, so an
invalid entry stays invalid until the loop reaches it). -/
theorem regBatchLoop_error_of_bad (t : Nat) : ∀ (entries : List (Nat × Nat × Nat))
    (st : RegState),
    (∃ e ∈ entries, e.1 = 0 ∨ st.usedCommitHashes e.1 = true ∨ e.2.2 = 0) →
    ∃ err, regBatchLoop t st entries = .error err := by
  intro entries
  induction entries with
  | nil =>
    rintro st ⟨e, he, _⟩
    cases he
  | cons hd rest ih =>
    rintro st ⟨e, he, hbad⟩
    obtain ⟨h, r, c⟩ := hd
    by_cases h0 : h = 0
    · exact ⟨.InvalidHash, by simp [regBatchLoop, h0]⟩
    · by_cases hu : st.usedCommitHashes h = true
      · exact ⟨.HashUsed, by simp [regBatchLoop, h0, hu]⟩
      · by_cases hc : c = 0
        · exact ⟨.InvalidContributor, by simp [regBatchLoop, h0, hu, hc]⟩
        · have hrest : e ∈ rest := by
            rcases List.mem_cons.mp he with heq | hmem
            · exfalso
              subst heq
              rcases hbad with hb | hb | hb
              · exact h0 hb
              · exact hu hb
              · exact hc hb
            · exact hmem
          have hbad' : e.1 = 0 ∨
              (recordCommit st h r c t).usedCommitHashes e.1 = true ∨ e.2.2 = 0 := by
            rcases hbad with hb | hb | hb
            · exact Or.inl hb
            · exact Or.inr (Or.inl (recordCommit_used_mono st h r c t e.1 hb))
            · exact Or.inr (Or.inr hb)
          obtain ⟨err, herr⟩ := ih (recordCommit st h r c t) ⟨e, hrest, hbad'⟩
          exact ⟨err, by simp [regBatchLoop, h0, hu, hc, herr]⟩

theorem regBatchLoop_ok_counter (t : Nat) : ∀ (entries : List (Nat × Nat × Nat))
    (st st' : RegState), regBatchLoop t st entries = .ok st' →
    st'.commitCounter = st.commitCounter + entries.length := by
  intro entries
  induction entries with
  | nil =>
    intro st st' hloop
    simp only [regBatchLoop] at hloop
    cases hloop
    simp
  | cons hd rest ih =>
    intro st st' hloop
    obtain ⟨h, r, c⟩ := hd
    simp only [regBatchLoop] at hloop
    split at hloop
    · cases hloop
    · split at hloop
      · cases hloop
      · split at hloop
        · cases hloop
        · have := ih _ _ hloop
          simp only [recordCommit] at this
          simp [this]
          omega

/-- C4: a `commitHash` is accepted at most once over the registry lifetime.
After a successful `registerRoundCommit`, the hash is marked used; the mark
survives every later sequence of single and batch registrations (regardless
of round); every later `registerRoundCommit` of the same hash reverts with
the hash-used error, and every later `registerRoundCommits` batch containing
the hash reverts whole — two submissions with the same `commitHash` are
never both accepted. -/
theorem commitHash_globally_unique
    (st st₁ : RegState) (h r s t id : Nat)
    (hreg : registerRoundCommit st h r s t = .ok (st₁, id)) :
    st₁.usedCommitHashes h = true ∧
    ∀ ops : List RegOp,
      (applyRegOps st₁ ops).usedCommitHashes h = true ∧
      (∀ r' s' t', registerRoundCommit (applyRegOps st₁ ops) h r' s' t' =
        .error .HashUsed) ∧
      (∀ (hashes rids ctrs : List Nat) (t' : Nat), h ∈ hashes →
        ∃ err, registerRoundCommits (applyRegOps st₁ ops) hashes rids ctrs t' =
          .error err) := by
  have hinv : h ≠ 0 ∧ st₁ = recordCommit st h r s t := by
    unfold registerRoundCommit at hreg
    split at hreg
    · cases hreg
    · split at hreg
      · cases hreg
      · cases hreg
        exact ⟨by assumption, rfl⟩
  have hused₁ : st₁.usedCommitHashes h = true := by
    rw [hinv.2]; exact recordCommit_used_self st h r s t
  refine ⟨hused₁, fun ops => ?_⟩
  have hused₂ : (applyRegOps st₁ ops).usedCommitHashes h = true :=
    applyRegOps_used_mono ops st₁ h hused₁
  refine ⟨hused₂, fun r' s' t' => ?_, fun hashes rids ctrs t' hmem => ?_⟩
  · unfold registerRoundCommit
    rw [if_neg hinv.1, hused₂]
    rfl
  · unfold registerRoundCommits
    by_cases hlen0 : hashes.length = 0
    · exact absurd (List.length_eq_zero.mp hlen0 ▸ hmem) (List.not_mem_nil h)
    · rw [if_neg hlen0]
      by_cases hlen : hashes.length = rids.length ∧ hashes.length = ctrs.length
      · rw [if_neg (not_not_intro hlen)]
        by_cases hbig : 100 < hashes.length
        · exact ⟨.BatchTooLarge, by rw [if_pos hbig]⟩
        · rw [if_neg hbig]
          have hzlen : hashes.length = (rids.zip ctrs).length := by
            rw [List.length_zip]
            omega
          obtain ⟨i, hi, hgi⟩ := List.mem_iff_getElem.mp hmem
          have hmemz : (h, (rids.zip ctrs).getD i (0, 0)) ∈
              hashes.zip (rids.zip ctrs) := by
            have := getD_mem_zip hashes (rids.zip ctrs) i hi hzlen
            rwa [List.getD_eq_getElem _ _ hi, hgi] at this
          exact regBatchLoop_error_of_bad t' _ _
            ⟨_, hmemz, Or.inr (Or.inl hused₂)⟩
      · exact ⟨.ArrayMismatch, by rw [if_pos (by tauto)]⟩

/-- Witness for C4: registering hash 3 in the empty registry succeeds; after
a mix of later transactions, re-registering hash 3 reverts as used and a
batch containing hash 3 reverts. -/
theorem commitHash_globally_unique_witness :
    ∃ st₁ id, registerRoundCommit rst0 3 1 9 10 = Except.ok (st₁, id) ∧
      (∀ r' s' t', registerRoundCommit (applyRegOps st₁ ropsT) 3 r' s' t' =
        .error .HashUsed) ∧
      ∃ err, registerRoundCommits (applyRegOps st₁ ropsT) [4, 3] [1, 1] [7, 8] 20 =
        .error err := by
  obtain ⟨st₁, id, hreg⟩ :
      ∃ a b, registerRoundCommit rst0 3 1 9 10 = Except.ok (a, b) := ⟨_, _, rfl⟩
  refine ⟨st₁, id, hreg, ?_, ?_⟩
  · exact ((commitHash_globally_unique rst0 st₁ 3 1 9 10 id hreg).2 ropsT).2.1
  · exact ((commitHash_globally_unique rst0 st₁ 3 1 9 10 id hreg).2 ropsT).2.2
      [4, 3] [1, 1] [7, 8] 20 (by simp)

/-- C7: batch commit registration is all-or-nothing.  The batch reverts when
the arrays are empty, of unequal length, or longer than 100; it reverts
whole when any single entry is invalid (zero hash, hash already used, zero
contributor); a reverted batch leaves the registry state — commits, used
hashes and the counter — exactly unchanged; and a successful batch advances
the counter by the full batch size. -/
theorem registerRoundCommits_all_or_nothing
    (st : RegState) (hashes rids ctrs : List Nat) (t : Nat) :
    ((hashes.length = 0 ∨ hashes.length ≠ rids.length ∨
        hashes.length ≠ ctrs.length ∨ 100 < hashes.length) →
      ∃ err, registerRoundCommits st hashes rids ctrs t = .error err) ∧
    ((∃ i, i < hashes.length ∧ (hashes.getD i 0 = 0 ∨
        st.usedCommitHashes (hashes.getD i 0) = true ∨ ctrs.getD i 0 = 0)) →
      ∃ err, registerRoundCommits st hashes rids ctrs t = .error err) ∧
    (∀ err, registerRoundCommits st hashes rids ctrs t = .error err →
      applyRegOp st (.batch hashes rids ctrs t) = st) ∧
    (∀ st', registerRoundCommits st hashes rids ctrs t = .ok st' →
      st'.commitCounter = st.commitCounter + hashes.length) := by
  refine ⟨?_, ?_, ?_, ?_⟩
  · intro hbad
    unfold registerRoundCommits
    by_cases hlen0 : hashes.length = 0
    · exact ⟨.EmptyBatch, by rw [if_pos hlen0]⟩
    · rw [if_neg hlen0]
      by_cases hlen : hashes.length = rids.length ∧ hashes.length = ctrs.length
      · rw [if_neg (not_not_intro hlen)]
        have hbig : 100 < hashes.length := by tauto
        exact ⟨.BatchTooLarge, by rw [if_pos hbig]⟩
      · exact ⟨.ArrayMismatch, by rw [if_pos (by tauto)]⟩
  · rintro ⟨i, hi, hbad⟩
    unfold registerRoundCommits
    by_cases hlen0 : hashes.length = 0
    · exact ⟨.EmptyBatch, by rw [if_pos hlen0]⟩
    · rw [if_neg hlen0]
      by_cases hlen : hashes.length = rids.length ∧ hashes.length = ctrs.length
      · rw [if_neg (not_not_intro hlen)]
        by_cases hbig : 100 < hashes.length
        · exact ⟨.BatchTooLarge, by rw [if_pos hbig]⟩
        · rw [if_neg hbig]
          have hzlen : hashes.length = (rids.zip ctrs).length := by
            rw [List.length_zip]
            omega
          have hmemz := getD_mem_zip hashes (rids.zip ctrs) i hi hzlen
          refine regBatchLoop_error_of_bad t _ _ ⟨_, hmemz, ?_⟩
          rcases hbad with hb | hb | hb
          · exact Or.inl hb
          · exact Or.inr (Or.inl hb)
          · refine Or.inr (Or.inr ?_)
            show ((rids.zip ctrs).getD i (0, 0)).2 = 0
            have hic : i < ctrs.length := by omega
            have hiz : i < (rids.zip ctrs).length := by omega
            rw [List.getD_eq_getElem _ _ hiz, List.getElem_zip]
            rw [List.getD_eq_getElem _ _ hic] at hb
            exact hb
      · exact ⟨.ArrayMismatch, by rw [if_pos (by tauto)]⟩
  · intro err herr
    simp [applyRegOp, herr]
  · intro st' hok
    unfold registerRoundCommits at hok
    split at hok
    · cases hok
    · split at hok
      · cases hok
      · split at hok
        · cases hok
        · have := regBatchLoop_ok_counter t _ st st' hok
          rw [this, List.length_zip, List.length_zip]
          rename_i hlen0 hlen _
          simp only [not_not] at hlen
          omega

/-- Witness for C7: the empty batch reverts; a batch whose second entry
reuses the already-registered hash 3 reverts; a valid two-entry batch on the
empty registry succeeds and advances the counter by 2. -/
theorem registerRoundCommits_all_or_nothing_witness :
    (∃ err, registerRoundCommits rst0 [] [] [] 0 = .error err) ∧
    (∃ err, registerRoundCommits (recordCommit rst0 3 1 9 10)
      [4, 3] [1, 1] [7, 8] 20 = .error err) ∧
    ∃ st', registerRoundCommits rst0 [4, 5] [1, 1] [7, 8] 20 = Except.ok st' ∧
      st'.commitCounter = rst0.commitCounter + 2 := by
  obtain ⟨st', hok⟩ :
      ∃ s, registerRoundCommits rst0 [4, 5] [1, 1] [7, 8] 20 = Except.ok s := ⟨_, rfl⟩
  refine ⟨(registerRoundCommits_all_or_nothing rst0 [] [] [] 0).1 (Or.inl rfl),
    (registerRoundCommits_all_or_nothing _ [4, 3] [1, 1] [7, 8] 20).2.1
      ⟨1, by decide, Or.inr (Or.inl (by decide))⟩,
    st', hok,
    (registerRoundCommits_all_or_nothing rst0 [4, 5] [1, 1] [7, 8] 20).2.2.2 st' hok⟩

/-! ## Merkle round-trip lemmas -/

theorem hashPair_comm (hm : HashModel) (a b : Nat) : hashPair hm a b = hashPair hm b a := by
  unfold hashPair
  rcases Nat.lt_trichotomy a b with h | h | h
  · rw [if_pos (Nat.le_of_lt h), if_neg (by omega)]
  · subst h; rfl
  · rw [if_neg (by omega), if_pos (Nat.le_of_lt h)]

theorem processProof_append (hm : HashModel) (xs ys : List Nat) (s : Nat) :
    processProof hm (xs ++ ys) s = processProof hm ys (processProof hm xs s) := by
  simp [processProof]

theorem nextLayer_length (hm : HashModel) :
    ∀ l : List Nat, (nextLayer hm l).length = (l.length + 1) / 2
  | [] => by simp [nextLayer]
  | [a] => by simp [nextLayer]
  | a :: b :: rest => by
    simp only [nextLayer, List.length_cons, nextLayer_length hm rest]
    omega

theorem nextLayer_getD_pair (hm : HashModel) :
    ∀ (l : List Nat) (k : Nat), 2 * k + 1 < l.length →
    (nextLayer hm l).getD k 0 = hashPair hm (l.getD (2 * k) 0) (l.getD (2 * k + 1) 0)
  | [], k, h => by simp at h
  | [a], k, h => by simp at h
  | a :: b :: rest, 0, h => by simp [nextLayer]
  | a :: b :: rest, k + 1, h => by
    have hr : 2 * k + 1 < rest.length := by
      simp only [List.length_cons] at h; omega
    have ih := nextLayer_getD_pair hm rest k hr
    have e1 : 2 * (k + 1) = 2 * k + 1 + 1 := by ring
    have e2 : 2 * (k + 1) + 1 = 2 * k + 1 + 1 + 1 := by ring
    simp only [nextLayer, e1, e2, List.getD_cons_succ]
    exact ih

theorem nextLayer_getD_last (hm : HashModel) :
    ∀ (l : List Nat) (k : Nat), l.length = 2 * k + 1 →
    (nextLayer hm l).getD k 0 = l.getD (2 * k) 0
  | [], k, h => by simp at h
  | [a], k, h => by
    have hk : k = 0 := by simp at h; omega
    subst hk
    simp [nextLayer]
  | a :: b :: rest, k, h => by
    obtain ⟨k', rfl⟩ : ∃ k', k = k' + 1 := by
      simp only [List.length_cons] at h
      cases k with
      | zero => omega
      | succ k' => exact ⟨k', rfl⟩
    have hr : rest.length = 2 * k' + 1 := by
      simp only [List.length_cons] at h; omega
    have ih := nextLayer_getD_last hm rest k' hr
    have e1 : 2 * (k' + 1) = 2 * k' + 1 + 1 := by ring
    simp only [nextLayer, e1, List.getD_cons_succ]
    exact ih

/-- Core round-trip property: processing the proof generated for position
`i` of a layer reproduces the root of that layer (fuel-indexed). -/
theorem roundtrip_aux (hm : HashModel) : ∀ (fuel : Nat) (l : List Nat) (i : Nat),
    l.length ≤ fuel + 1 → i < l.length →
    processProof hm (proofAux hm fuel l i) (l.getD i 0) = rootAux hm fuel l := by
  intro fuel
  induction fuel with
  | zero =>
    intro l i hlen hi
    match l with
    | [] => simp at hi
    | [a] =>
      have hz : i = 0 := by simp at hi; omega
      subst hz
      simp [proofAux, rootAux, processProof]
    | a :: b :: rest => simp at hlen
  | succ f ih =>
    intro l i hlen hi
    match l with
    | [] => simp at hi
    | [a] =>
      have hz : i = 0 := by simp at hi; omega
      subst hz
      simp [proofAux, rootAux, processProof]
    | a :: b :: rest =>
      simp only [List.length_cons] at hlen hi
      have hnl_len : (nextLayer hm (a :: b :: rest)).length =
          ((a :: b :: rest).length + 1) / 2 := nextLayer_length hm _
      simp only [List.length_cons] at hnl_len
      have hfuel' : (nextLayer hm (a :: b :: rest)).length ≤ f + 1 := by
        rw [hnl_len]; omega
      have hi' : i / 2 < (nextLayer hm (a :: b :: rest)).length := by
        rw [hnl_len]; omega
      have ihred := ih (nextLayer hm (a :: b :: rest)) (i / 2) hfuel' hi'
      have hstep : proofAux hm (f + 1) (a :: b :: rest) i =
          siblingAt (a :: b :: rest) i ++
            proofAux hm f (nextLayer hm (a :: b :: rest)) (i / 2) := rfl
      have hroot : rootAux hm (f + 1) (a :: b :: rest) =
          rootAux hm f (nextLayer hm (a :: b :: rest)) := rfl
      rw [hstep, hroot, processProof_append, ← ihred]
      congr 1
      by_cases hpar : i % 2 = 0
      · by_cases hsib : i + 1 < (a :: b :: rest).length
        · have hs : siblingAt (a :: b :: rest) i = [(a :: b :: rest).getD (i + 1) 0] := by
            simp only [siblingAt]
            rw [if_pos hpar, if_pos hsib]
          have hsib2 : i + 1 < rest.length + 1 + 1 := by
            simpa using hsib
          have hpair := nextLayer_getD_pair hm (a :: b :: rest) (i / 2)
            (by simp only [List.length_cons]; omega)
          have e : 2 * (i / 2) = i := by omega
          rw [e] at hpair
          rw [hs, hpair]
          simp [processProof]
        · have hs : siblingAt (a :: b :: rest) i = [] := by
            simp only [siblingAt]
            rw [if_pos hpar, if_neg hsib]
          have hsib2 : ¬ i + 1 < rest.length + 1 + 1 := by
            simpa using hsib
          have hlast := nextLayer_getD_last hm (a :: b :: rest) (i / 2)
            (by simp only [List.length_cons]; omega)
          have e : 2 * (i / 2) = i := by omega
          rw [e] at hlast
          rw [hs, hlast]
          simp [processProof]
      · have hi1 : i - 1 < (a :: b :: rest).length := by
          simp only [List.length_cons]; omega
        have hs : siblingAt (a :: b :: rest) i = [(a :: b :: rest).getD (i - 1) 0] := by
          simp only [siblingAt]
          rw [if_neg hpar, if_pos hi1]
        have hpair := nextLayer_getD_pair hm (a :: b :: rest) (i / 2)
          (by simp only [List.length_cons]; omega)
        have e1 : 2 * (i / 2) = i - 1 := by omega
        rw [e1] at hpair
        have e2 : i - 1 + 1 = i := by omega
        rw [e2] at hpair
        rw [hs, hpair]
        simp only [processProof, List.foldl]
        exact hashPair_comm hm _ _

/-- Round-trip: the proof generated by the `merkletreejs` construction with
sorted pairs for any position verifies under OpenZeppelin
`MerkleProof.verify` against the tree root, for every hash model. -/
theorem merkle_proof_roundtrip (hm : HashModel) (leaves : List Nat) (i : Nat)
    (hi : i < leaves.length) :
    merkleVerify hm (proofAt hm leaves i) (merkleRootOf hm leaves)
      (leaves.getD i 0) = true := by
  unfold merkleVerify proofAt merkleRootOf
  rw [roundtrip_aux hm leaves.length leaves i (by omega) hi]
  simp

/-! ## Claimed-bitmap lemmas -/

theorem isClaimed_eq_testBit (st : DistState) (d i : Nat) :
    isClaimed st d i = (st.claimedBitmap d (i / 256)).testBit (i % 256) := by
  unfold isClaimed
  rw [Nat.one_shiftLeft, Nat.and_two_pow]
  cases h : (st.claimedBitmap d (i / 256)).testBit (i % 256) <;> simp [h]

theorem isClaimed_setClaimed_self (st : DistState) (d i : Nat) :
    isClaimed (setClaimed st d i) d i = true := by
  rw [isClaimed_eq_testBit]
  simp [setClaimed, Nat.one_shiftLeft, Nat.testBit_or]

theorem isClaimed_setClaimed_mono (st : DistState) (c j d i : Nat)
    (h : isClaimed st d i = true) : isClaimed (setClaimed st c j) d i = true := by
  rw [isClaimed_eq_testBit] at h ⊢
  simp only [setClaimed]
  by_cases hc : d = c ∧ i / 256 = j / 256
  · rw [if_pos hc, Nat.one_shiftLeft, Nat.testBit_or, h]
    simp
  · rw [if_neg hc]
    exact h

theorem isClaimed_setClaimed_ne (st : DistState) (c j d i : Nat)
    (hne : ¬ (d = c ∧ i = j)) :
    isClaimed (setClaimed st c j) d i = isClaimed st d i := by
  rw [isClaimed_eq_testBit, isClaimed_eq_testBit]
  simp only [setClaimed]
  by_cases hc : d = c ∧ i / 256 = j / 256
  · rw [if_pos hc]
    have hbit : j % 256 ≠ i % 256 := by
      intro hmod
      exact hne ⟨hc.1, by omega⟩
    rw [Nat.one_shiftLeft, Nat.testBit_or, Nat.testBit_two_pow_of_ne hbit]
    simp
  · rw [if_neg hc]

/-! ## Distributor transaction inversion lemmas -/

theorem claimMerkle_ok_inv (hm : HashModel) (st : DistState)
    (mo i a m : Nat) (p : List Nat) (st' : DistState)
    (h : claimMerkle hm st mo i a m p = .ok st') :
    (st.distributions mo).merkleRoot ≠ 0 ∧
    isClaimed st mo i = false ∧
    merkleVerify hm p (st.distributions mo).merkleRoot
      (hm.leafHash (claimLeafBytes i a m)) = true ∧
    (st.distributions mo).claimedAmount + m < 256 ^ 32 ∧
    m ≤ st.distributorBalance ∧
    st' = { setClaimed st mo i with
      distributions := fun k =>
        if k = mo then
          { st.distributions mo with
            claimedAmount := (st.distributions mo).claimedAmount + m }
        else st.distributions k
      distributorBalance := st.distributorBalance - m } := by
  unfold claimMerkle at h
  split at h
  · cases h
  · split at h
    · cases h
    · split at h
      · cases h
      · split at h
        · cases h
        · split at h
          · cases h
          · cases h
            rename_i h0 hcl hver hov hbal
            refine ⟨h0, by simpa using hcl, by simpa using hver, by omega, by omega, rfl⟩

theorem setDistributionMerkle_ok_inv (st : DistState) (mo r t : Nat) (st' : DistState)
    (h : setDistributionMerkle st mo r t = .ok st') :
    r ≠ 0 ∧ t ≠ 0 ∧
    st' = { st with distributions := fun k =>
      if k = mo then ⟨r, t, 0⟩ else st.distributions k } := by
  unfold setDistributionMerkle at h
  split at h
  · cases h
  · rename_i hr
    split at h
    · cases h
    · rename_i ht
      split at h
      · cases h
      · split at h
        all_goals split at h
        all_goals cases h
        all_goals exact ⟨hr, ht, rfl⟩

theorem emergencyWithdraw_ok_inv (st : DistState) (amt to_ : Nat) (st' : DistState)
    (h : emergencyWithdraw st amt to_ = .ok st') :
    st' = { st with distributorBalance := st.distributorBalance - amt } := by
  unfold emergencyWithdraw at h
  split at h
  · cases h
  · split at h
    · cases h
    · cases h
      rfl

/-! ## Permanence of claimed bits and of published roots -/

theorem isClaimed_mono_op (hm : HashModel) (st : DistState) (o : DistOp) (d i : Nat)
    (hb : isClaimed st d i = true) : isClaimed (applyDistOp hm st o) d i = true := by
  cases o with
  | claim c j a amt p =>
    simp only [applyDistOp]
    split
    · rename_i st' heq
      obtain ⟨-, -, -, -, -, hst'⟩ := claimMerkle_ok_inv hm st c j a amt p st' heq
      subst hst'
      exact isClaimed_setClaimed_mono st c j d i hb
    · exact hb
  | setDist c r t =>
    simp only [applyDistOp]
    split
    · rename_i st' heq
      obtain ⟨-, -, hst'⟩ := setDistributionMerkle_ok_inv st c r t st' heq
      subst hst'
      exact hb
    · exact hb
  | withdraw amt to_ =>
    simp only [applyDistOp]
    split
    · rename_i st' heq
      rw [emergencyWithdraw_ok_inv st amt to_ st' heq]
      exact hb
    · exact hb
  | fund amt => exact hb

theorem root_ne_zero_op (hm : HashModel) (st : DistState) (o : DistOp) (d : Nat)
    (hr : (st.distributions d).merkleRoot ≠ 0) :
    ((applyDistOp hm st o).distributions d).merkleRoot ≠ 0 := by
  cases o with
  | claim c j a amt p =>
    simp only [applyDistOp]
    split
    · rename_i st' heq
      obtain ⟨-, -, -, -, -, hst'⟩ := claimMerkle_ok_inv hm st c j a amt p st' heq
      subst hst'
      by_cases hdc : d = c
      · subst hdc
        simpa using hr
      · simpa [hdc] using hr
    · exact hr
  | setDist c r t =>
    simp only [applyDistOp]
    split
    · rename_i st' heq
      obtain ⟨hrne, -, hst'⟩ := setDistributionMerkle_ok_inv st c r t st' heq
      subst hst'
      by_cases hdc : d = c
      · subst hdc
        simpa using hrne
      · simpa [hdc] using hr
    · exact hr
  | withdraw amt to_ =>
    simp only [applyDistOp]
    split
    · rename_i st' heq
      rw [emergencyWithdraw_ok_inv st amt to_ st' heq]
      exact hr
    · exact hr
  | fund amt => exact hr

theorem isClaimed_mono_ops (hm : HashModel) (ops : List DistOp) :
    ∀ (st : DistState) (d i : Nat), isClaimed st d i = true →
    isClaimed (applyDistOps hm st ops) d i = true := by
  induction ops with
  | nil => intro st d i hb; exact hb
  | cons o rest ih =>
    intro st d i hb
    exact ih (applyDistOp hm st o) d i (isClaimed_mono_op hm st o d i hb)

theorem root_ne_zero_ops (hm : HashModel) (ops : List DistOp) :
    ∀ (st : DistState) (d : Nat), (st.distributions d).merkleRoot ≠ 0 →
    ((applyDistOps hm st ops).distributions d).merkleRoot ≠ 0 := by
  induction ops with
  | nil => intro st d hr; exact hr
  | cons o rest ih =>
    intro st d hr
    exact ih (applyDistOp hm st o) d (root_ne_zero_op hm st o d hr)

/-- `claimMerkle` reverts with `AlreadyClaimed` whenever the distribution is
set and the bit of the index is set, whatever the account, amount and
proof. -/
theorem claimMerkle_already (hm : HashModel) (st : DistState) (mo i : Nat)
    (hroot : (st.distributions mo).merkleRoot ≠ 0)
    (hbit : isClaimed st mo i = true) (a m : Nat) (p : List Nat) :
    claimMerkle hm st mo i a m p = .error .AlreadyClaimed := by
  unfold claimMerkle
  rw [if_neg hroot, if_pos hbit]

/-- C1: at most one claim per distribution and index.  A successful
`claimMerkle` sets the bit of its index; the bit survives every later
sequence of distributor transactions (claims, root replacements,
withdrawals, funding); and every later `claimMerkle` call for the same
distribution and index — with any account, amount and proof, valid or not —
reverts with `AlreadyClaimed`, which the contract raises before the leaf is
reconstructed, before the proof is checked and before any transfer. -/
theorem claimMerkle_at_most_once (hm : HashModel) (st st₁ : DistState)
    (d i a m : Nat) (p : List Nat)
    (h : claimMerkle hm st d i a m p = .ok st₁) :
    isClaimed st₁ d i = true ∧
    ∀ (ops : List DistOp) (a' m' : Nat) (p' : List Nat),
      isClaimed (applyDistOps hm st₁ ops) d i = true ∧
      claimMerkle hm (applyDistOps hm st₁ ops) d i a' m' p' =
        .error .AlreadyClaimed := by
  obtain ⟨hroot, -, -, -, -, hst₁⟩ := claimMerkle_ok_inv hm st d i a m p st₁ h
  have hbit₁ : isClaimed st₁ d i = true := by
    subst hst₁
    exact isClaimed_setClaimed_self st d i
  have hroot₁ : (st₁.distributions d).merkleRoot ≠ 0 := by
    subst hst₁
    simpa using hroot
  refine ⟨hbit₁, fun ops a' m' p' => ?_⟩
  have hbit₂ := isClaimed_mono_ops hm ops st₁ d i hbit₁
  have hroot₂ := root_ne_zero_ops hm ops st₁ d hroot₁
  exact ⟨hbit₂, claimMerkle_already hm _ d i hroot₂ hbit₂ a' m' p'⟩

/-- Witness for C1: on the concrete one-distribution state, claiming index 0
succeeds once, and after a mix of later transactions the same claim reverts
with `AlreadyClaimed`. -/
theorem claimMerkle_at_most_once_witness :
    ∃ st₁, claimMerkle hmT stT 5 0 7 100 [] = Except.ok st₁ ∧
      claimMerkle hmT (applyDistOps hmT st₁ opsT) 5 0 7 100 [] =
        Except.error ClaimError.AlreadyClaimed := by
  obtain ⟨st₁, hok⟩ : ∃ s, claimMerkle hmT stT 5 0 7 100 [] = Except.ok s := ⟨_, rfl⟩
  exact ⟨st₁, hok,
    ((claimMerkle_at_most_once hmT stT st₁ 5 0 7 100 [] hok).2 opsT 7 100 []).2⟩

/-- C10: replacing a distribution root with `setDistributionMerkle`
overwrites `merkleRoot` and `totalReward`, resets `claimedAmount` to zero,
leaves the claimed bitmap of every model untouched and every other
distribution unchanged; consequently every index claimed under the previous
root still reverts with `AlreadyClaimed` under the new root — a regenerated
distribution can never pay an index claimed before the replacement. -/
theorem setDistributionMerkle_preserves_bitmap (hm : HashModel) (st : DistState)
    (mo r t : Nat) (st' : DistState)
    (h : setDistributionMerkle st mo r t = .ok st') :
    st'.distributions mo = ⟨r, t, 0⟩ ∧
    (∀ c w, st'.claimedBitmap c w = st.claimedBitmap c w) ∧
    (∀ k, k ≠ mo → st'.distributions k = st.distributions k) ∧
    ∀ i, isClaimed st mo i = true → ∀ a m (p : List Nat),
      claimMerkle hm st' mo i a m p = .error .AlreadyClaimed := by
  obtain ⟨hr, ht, hst'⟩ := setDistributionMerkle_ok_inv st mo r t st' h
  refine ⟨?_, ?_, ?_, ?_⟩
  · rw [hst']
    simp
  · intro c w
    rw [hst']
  · intro k hk
    rw [hst']
    simp [hk]
  · intro i hbit a m p
    refine claimMerkle_already hm st' mo i ?_ ?_ a m p
    · rw [hst']
      simp [hr]
    · rw [hst']
      exact hbit

/-- Witness for C10: replacing the fully claimed distribution of `stT10`
with a fresh root succeeds, keeps the bitmap word, and the previously
claimed index 1 still reverts with `AlreadyClaimed`. -/
theorem setDistributionMerkle_preserves_bitmap_witness :
    ∃ st', setDistributionMerkle stT10 5 9 50 = Except.ok st' ∧
      st'.claimedBitmap 5 0 = stT10.claimedBitmap 5 0 ∧
      claimMerkle hmT st' 5 1 8 200 [] = Except.error ClaimError.AlreadyClaimed := by
  obtain ⟨st', hok⟩ : ∃ s, setDistributionMerkle stT10 5 9 50 = Except.ok s := ⟨_, rfl⟩
  exact ⟨st', hok,
    (setDistributionMerkle_preserves_bitmap hmT stT10 5 9 50 st' hok).2.1 5 0,
    (setDistributionMerkle_preserves_bitmap hmT stT10 5 9 50 st' hok).2.2.2 1
      (by decide) 8 200 []⟩

/-! ## C2: leaf encodings of the builder and of the claim verifier -/

/-- Counterexample to C2.  The byte string `publishRound.js` feeds to
keccak256 for a manifest entry — the UTF-8 canonical string with the
submitter appended — is not the byte string `claimMerkle` feeds to keccak256
for a reward tuple — the packed 84-byte `(index, account, amount)` encoding.
At the spec example entry (cid Qm123, round 1, 100 examples, quality 250)
and reward tuple (index 0, recipient 7, amount 100) the two hash inputs
differ; indeed they do not even have the same length, so no choice of
submitter or recipient can reconcile them.  Hence the builder script does
not compute the leaf that `claimMerkle` reconstructs. -/
theorem publish_claim_leaf_encodings_differ :
    publishLeafBytes "Qm123" 1 100 250 "0xaabb" ≠ claimLeafBytes 0 7 100 ∧
    (publishLeafBytes "Qm123" 1 100 250 "0xaabb").length ≠
      (claimLeafBytes 0 7 100).length := by
  decide

theorem claimLeaves_length (hm : HashModel) (entries : RewardEntries) :
    (claimLeaves hm entries).length = entries.length := by
  simp [claimLeaves]

theorem claimLeaves_getD (hm : HashModel) (entries : RewardEntries) (i : Nat)
    (hi : i < entries.length) :
    (claimLeaves hm entries).getD i 0 =
      hm.leafHash (claimLeafBytes i (entries.getD i (0, 0)).1 (entries.getD i (0, 0)).2) := by
  unfold claimLeaves
  rw [List.getD_eq_getElem _ _ (by simpa using hi)]
  simp

/-- C2 as amended: the round-trip holds for the leaf encoding the contract
actually reconstructs.  For a distribution whose root is the sorted-pair
Merkle root of the leaves `hash(index, recipient, amount)` of a reward entry
set, every entry own proof passes `claimMerkle` verification and the claim
succeeds (on an unclaimed index with sufficient escrow) — for every hash
model.  The builder in `publishRound.js` does not produce these leaves (see
the counterexample), so the round-trip of the original claim holds only for
a builder that uses the `claimMerkle` encoding. -/
theorem claim_leaf_roundtrip (hm : HashModel) (st : DistState) (d : Nat)
    (entries : RewardEntries) (i : Nat) (hi : i < entries.length)
    (hroot : (st.distributions d).merkleRoot = merkleRootOf hm (claimLeaves hm entries))
    (hne : merkleRootOf hm (claimLeaves hm entries) ≠ 0)
    (hnc : isClaimed st d i = false)
    (hov : (st.distributions d).claimedAmount + (entries.getD i (0, 0)).2 < 256 ^ 32)
    (hbal : (entries.getD i (0, 0)).2 ≤ st.distributorBalance) :
    ∃ st', claimMerkle hm st d i (entries.getD i (0, 0)).1 (entries.getD i (0, 0)).2
      (proofAt hm (claimLeaves hm entries) i) = .ok st' := by
  have hver : merkleVerify hm (proofAt hm (claimLeaves hm entries) i)
      (merkleRootOf hm (claimLeaves hm entries))
      (hm.leafHash (claimLeafBytes i (entries.getD i (0, 0)).1
        (entries.getD i (0, 0)).2)) = true := by
    rw [← claimLeaves_getD hm entries i hi]
    exact merkle_proof_roundtrip hm _ i (by rw [claimLeaves_length]; exact hi)
  unfold claimMerkle
  rw [hroot]
  rw [if_neg hne, if_neg (by simp [hnc]), if_neg (not_not_intro hver),
      if_neg (by omega), if_neg (by omega)]
  exact ⟨_, rfl⟩

/-- Witness for C2 as amended: on the two-entry reward set, the proof of
entry 1 generated from the claim-side leaves verifies and the claim
succeeds. -/
theorem claim_leaf_roundtrip_witness :
    ∃ st', claimMerkle hmT stT2 5 1 (entriesT2.getD 1 (0, 0)).1
      (entriesT2.getD 1 (0, 0)).2
      (proofAt hmT (claimLeaves hmT entriesT2) 1) = .ok st' :=
  claim_leaf_roundtrip hmT stT2 5 entriesT2 1 (by decide) (by decide) (by decide)
    (by decide) (by decide) (by decide)

/-! ## C3: the claimed amount never exceeds the total reward -/

theorem sum_range_getD (entries : RewardEntries) :
    ∑ i in Finset.range entries.length, (entries.getD i (0, 0)).2 =
      (entries.map Prod.snd).sum := by
  induction entries with
  | nil => simp
  | cons e es ih =>
    rw [List.length_cons, Finset.sum_range_succ']
    simp only [List.getD_cons_succ, List.getD_cons_zero]
    rw [ih]
    simp [add_comm]

theorem unclaimedSum_congr (entries : RewardEntries) (st st' : DistState) (d : Nat)
    (h : ∀ i, i < entries.length → isClaimed st' d i = isClaimed st d i) :
    unclaimedSum entries st' d = unclaimedSum entries st d := by
  unfold unclaimedSum
  apply Finset.sum_congr
  · apply Finset.filter_congr
    intro i hi
    rw [h i (Finset.mem_range.mp hi)]
  · intro i _
    rfl

/-- One claim transaction preserves the escrow invariant of distribution
`d`: the root and total are untouched and the claimed amount plus the sum of
the still-unclaimed committed amounts stays below the total.  A successful
claim on `d` must, by the commitment hypothesis, be a committed entry at its
own index with its own amount, and it removes exactly that entry from the
unclaimed set. -/
theorem claim_step_invariant (hm : HashModel) (entries : RewardEntries)
    (d root T : Nat) (st : DistState) (o : DistOp)
    (hclaim : o.isClaim) (hwf : o.wf)
    (hcommit : commitsTo hm root entries)
    (hroot : (st.distributions d).merkleRoot = root)
    (hT : (st.distributions d).totalReward = T)
    (hinv : (st.distributions d).claimedAmount + unclaimedSum entries st d ≤ T) :
    ((applyDistOp hm st o).distributions d).merkleRoot = root ∧
    ((applyDistOp hm st o).distributions d).totalReward = T ∧
    ((applyDistOp hm st o).distributions d).claimedAmount +
      unclaimedSum entries (applyDistOp hm st o) d ≤ T := by
  cases o with
  | setDist _ _ _ => exact hclaim.elim
  | withdraw _ _ => exact hclaim.elim
  | fund _ => exact hclaim.elim
  | claim c j a amt p =>
    simp only [applyDistOp]
    split
    · rename_i st' heq
      obtain ⟨hroot0, hnc, hver, hov, hbal, hst'⟩ :=
        claimMerkle_ok_inv hm st c j a amt p st' heq
      obtain ⟨hj, ha, hamt⟩ := hwf
      by_cases hdc : c = d
      · subst hdc
        obtain ⟨hjN, hentry⟩ := hcommit j a amt p hj ha hamt (hroot ▸ hver)
        have hdist : st'.distributions c =
            { st.distributions c with
              claimedAmount := (st.distributions c).claimedAmount + amt } := by
          rw [hst']
          simp
        have hbit : ∀ i, isClaimed st' c i =
            if i = j then true else isClaimed st c i := by
          intro i
          by_cases hij : i = j
          · subst hij
            rw [if_pos rfl, hst']
            exact isClaimed_setClaimed_self st c i
          · rw [if_neg hij, hst']
            exact isClaimed_setClaimed_ne st c j c i (by tauto)
        have hSS : (Finset.range entries.length).filter
              (fun i => ¬ isClaimed st' c i = true) =
            ((Finset.range entries.length).filter
              (fun i => ¬ isClaimed st c i = true)).erase j := by
          ext i
          simp only [Finset.mem_erase, Finset.mem_filter, Finset.mem_range]
          constructor
          · rintro ⟨hiN, hni⟩
            have hbi := hbit i
            by_cases hij : i = j
            · subst hij
              rw [if_pos rfl] at hbi
              exact absurd hbi hni
            · rw [if_neg hij] at hbi
              rw [hbi] at hni
              exact ⟨hij, hiN, hni⟩
          · rintro ⟨hij, hiN, hni⟩
            have hbi := hbit i
            rw [if_neg hij] at hbi
            rw [← hbi] at hni
            exact ⟨hiN, hni⟩
        have hjS : j ∈ (Finset.range entries.length).filter
            (fun i => ¬ isClaimed st c i = true) := by
          simp only [Finset.mem_filter, Finset.mem_range]
          exact ⟨hjN, by simp [hnc]⟩
        have hfj : (entries.getD j (0, 0)).2 = amt := by
          rw [hentry]
        have hUS : unclaimedSum entries st' c + amt = unclaimedSum entries st c := by
          unfold unclaimedSum
          rw [hSS, ← hfj]
          exact Finset.sum_erase_add _ _ hjS
        have hca : (st'.distributions c).claimedAmount =
            (st.distributions c).claimedAmount + amt := by
          rw [hdist]
        refine ⟨?_, ?_, ?_⟩
        · rw [hdist]
          simpa using hroot
        · rw [hdist]
          simpa using hT
        · rw [hca]
          omega
      · have hdist : st'.distributions d = st.distributions d := by
          rw [hst']
          exact if_neg (fun hh => hdc hh.symm)
        have hbits : ∀ i, i < entries.length →
            isClaimed st' d i = isClaimed st d i := by
          intro i _
          rw [hst']
          exact isClaimed_setClaimed_ne st c j d i (by tauto)
        rw [hdist, unclaimedSum_congr entries st st' d hbits]
        exact ⟨hroot, hT, hinv⟩
    · exact ⟨hroot, hT, hinv⟩

theorem claim_trace_invariant (hm : HashModel) (entries : RewardEntries)
    (d root T : Nat) (hcommit : commitsTo hm root entries) :
    ∀ (ops : List DistOp) (st : DistState),
    (∀ o ∈ ops, o.isClaim ∧ o.wf) →
    (st.distributions d).merkleRoot = root →
    (st.distributions d).totalReward = T →
    (st.distributions d).claimedAmount + unclaimedSum entries st d ≤ T →
    ((applyDistOps hm st ops).distributions d).claimedAmount +
      unclaimedSum entries (applyDistOps hm st ops) d ≤ T := by
  intro ops
  induction ops with
  | nil =>
    intro st _ _ _ hinv
    exact hinv
  | cons o rest ih =>
    intro st hops hroot hT hinv
    have ho := hops o (List.mem_cons_self o rest)
    obtain ⟨h1, h2, h3⟩ :=
      claim_step_invariant hm entries d root T st o ho.1 ho.2 hcommit hroot hT hinv
    exact ih (applyDistOp hm st o) (fun o' ho' => hops o' (List.mem_cons_of_mem o ho')) h1 h2 h3

/-- C3: for a distribution whose published root commits to a reward entry
set with amounts summing to the stored `totalReward`, the running
`claimedAmount` never exceeds `totalReward` along any sequence of
`claimMerkle` transactions (well-typed calldata).  The bound is structural —
`claimMerkle` performs no runtime `claimedAmount <= totalReward` check in the
model, exactly as in the source — and follows from each index claiming at
most once, for its committed amount. -/
theorem claimedAmount_le_totalReward (hm : HashModel) (st : DistState) (d : Nat)
    (entries : RewardEntries) (T : Nat) (ops : List DistOp)
    (hops : ∀ o ∈ ops, o.isClaim ∧ o.wf)
    (hcommit : commitsTo hm (st.distributions d).merkleRoot entries)
    (hsum : (entries.map Prod.snd).sum = T)
    (hT : (st.distributions d).totalReward = T)
    (hclaimed : (st.distributions d).claimedAmount = 0) :
    ((applyDistOps hm st ops).distributions d).claimedAmount ≤ T := by
  have hUS : unclaimedSum entries st d ≤ T := by
    rw [← hsum, ← sum_range_getD entries]
    unfold unclaimedSum
    exact Finset.sum_le_sum_of_subset (Finset.filter_subset _ _)
  have h := claim_trace_invariant hm entries d (st.distributions d).merkleRoot T
    hcommit ops st hops rfl hT (by omega)
  omega

/-! Witness machinery for C3: the toy hash model admits exactly the single
committed entry of `entriesT` behind root 1. -/

theorem hashPair_hmT (x y : Nat) : hashPair hmT x y = 2 := by
  unfold hashPair hmT
  split <;> rfl

theorem processProof_hmT_two : ∀ rest : List Nat, processProof hmT rest 2 = 2
  | [] => rfl
  | q :: rest => by
    simp only [processProof, List.foldl]
    rw [hashPair_hmT]
    exact processProof_hmT_two rest

theorem commitsTo_hmT : commitsTo hmT 1 entriesT := by
  intro i a m p hi ha hm hver
  unfold merkleVerify at hver
  cases p with
  | nil =>
    have hl : hmT.leafHash (claimLeafBytes i a m) = 1 := by
      simpa [processProof] using hver
    have henc : claimLeafBytes i a m = claimLeafBytes 0 7 100 := by
      by_contra hne
      have h2 : hmT.leafHash (claimLeafBytes i a m) = 2 := by
        simp [hmT, hne]
      omega
    obtain ⟨hi0, ha7, hm100⟩ := claimLeafBytes_inj hi ha hm
      (by norm_num) (by norm_num) (by norm_num) henc
    subst hi0
    subst ha7
    subst hm100
    exact ⟨by decide, by decide⟩
  | cons q rest =>
    exfalso
    have h2 : processProof hmT (q :: rest)
        (hmT.leafHash (claimLeafBytes i a m)) = 2 := by
      simp only [processProof, List.foldl]
      rw [hashPair_hmT]
      exact processProof_hmT_two rest
    rw [h2] at hver
    simp at hver

/-- Witness for C3: on the one-entry distribution (total 100), running the
single well-typed claim of the committed entry leaves the claimed amount at
no more than 100. -/
theorem claimedAmount_le_totalReward_witness :
    ((applyDistOps hmT stT [DistOp.claim 5 0 7 100 []]).distributions 5).claimedAmount
      ≤ 100 :=
  claimedAmount_le_totalReward hmT stT 5 entriesT 100 [DistOp.claim 5 0 7 100 []]
    (by
      intro o ho
      simp only [List.mem_singleton] at ho
      subst ho
      exact ⟨trivial, by decide, by decide, by decide⟩)
    commitsTo_hmT (by decide) (by decide) (by decide)
